import Mathlib

/-!
Verification of the ai-report-generator pipeline.

Texts are modelled as `List Char` (a JavaScript string is a sequence of
characters; none of the verified code depends on UTF-16 surrogate details).
Each definition is a shallow embedding of the corresponding function of the
repository, translated clause by clause from the source.
-/

namespace ReportGen

/-! ## Chunker (src/utils/chunker.ts) -/

/-- `MAX_CHUNK_SIZE` from src/utils/chunker.ts line 2. -/
def MAX_CHUNK_SIZE : Nat := 15000

/-- The JavaScript whitespace set used by `String.prototype.trim`
(WhiteSpace ∪ LineTerminator per ECMA-262). -/
def jsWhitespace (c : Char) : Bool :=
  c = '\t' || c = '\n' || c = Char.ofNat 11 || c = Char.ofNat 12 ||
  c = '\r' || c = ' ' || c = Char.ofNat 0x00A0 || c = Char.ofNat 0x1680 ||
  (0x2000 ≤ c.toNat && c.toNat ≤ 0x200A) || c = Char.ofNat 0x2028 ||
  c = Char.ofNat 0x2029 || c = Char.ofNat 0x202F || c = Char.ofNat 0x205F ||
  c = Char.ofNat 0x3000 || c = Char.ofNat 0xFEFF

/-- `p.trim().length > 0` in JavaScript: the string has a non-whitespace
character. -/
def hasNonWs (p : List Char) : Bool := p.any (fun c => !jsWhitespace c)

/-- Group a character list into maximal runs that agree on whether the
character is a newline.  This is the segmentation underlying the JavaScript
split `text.split(/(\n+)/)`: runs of `\n` alternate with newline-free
segments. -/
def groupNl : List Char → List (List Char)
  | [] => []
  | c :: cs =>
    match groupNl cs with
    | [] => [[c]]
    | [] :: gs => [c] :: [] :: gs
    | (d :: g) :: gs =>
      if (c == '\n') = (d == '\n') then (c :: d :: g) :: gs
      else [c] :: (d :: g) :: gs

/-- JavaScript `text.split(/(\n+)/)`: the maximal newline runs are kept as
elements (the regex captures them), and an empty segment appears before a
leading run and after a trailing run; splitting the empty string yields
`[""]`. -/
def splitCap (s : List Char) : List (List Char) :=
  match groupNl s with
  | [] => [[]]
  | g :: gs =>
    let groups := g :: gs
    let pre : List (List Char) := if g.headD 'a' = '\n' then [[]] else []
    let post : List (List Char) :=
      if (groups.getLastD []).headD 'a' = '\n' then [[]] else []
    pre ++ groups ++ post

/-- The `paragraphs` list of `chunkText`:
`text.split(/(\n+)/).filter(p => p.trim().length > 0)`. -/
def paragraphs (s : List Char) : List (List Char) :=
  (splitCap s).filter hasNonWs

/-- The greedy accumulation loop of `chunkText` (lines 14–28 of
src/utils/chunker.ts), with the running `currentChunk` made explicit;
the final `if (currentChunk.length > 0) chunks.push(currentChunk)` is the
base case. -/
def greedyAux : List (List Char) → List Char → List (List Char)
  | [], cur => if cur.length > 0 then [cur] else []
  | p :: ps, cur =>
    if cur.length + p.length > MAX_CHUNK_SIZE then
      (if cur.length > 0 then [cur] else []) ++ greedyAux ps p
    else
      greedyAux ps (cur ++ p)

/-- The hard-split inner loop (lines 34–36 of src/utils/chunker.ts):
`for (let i = 0; i < chunk.length; i += MAX_CHUNK_SIZE)
   finalChunks.push(chunk.substring(i, i + MAX_CHUNK_SIZE))`. -/
def hardSplitGo (c : List Char) : List (List Char) :=
  if h : c = [] then []
  else c.take MAX_CHUNK_SIZE :: hardSplitGo (c.drop MAX_CHUNK_SIZE)
termination_by c.length
decreasing_by
  have hlen : 0 < c.length := List.length_pos.mpr h
  simp only [List.length_drop, MAX_CHUNK_SIZE]
  omega

/-- The post-processing loop of `chunkText` (lines 31–40):
every chunk longer than the maximum is hard-split, the others are kept. -/
def finalize (chunks : List (List Char)) : List (List Char) :=
  chunks.flatMap fun c =>
    if c.length > MAX_CHUNK_SIZE then hardSplitGo c else [c]

/-- `chunkText` from src/utils/chunker.ts: early-return `[]` on the empty
(falsy) string, then split into paragraphs, greedily accumulate, and
hard-split the oversized chunks. -/
def chunkText (text : List Char) : List (List Char) :=
  if text = [] then []
  else finalize (greedyAux (paragraphs text) [])

/-! ### Chunker lemmas -/

theorem hardSplitGo_flatten (c : List Char) : (hardSplitGo c).flatten = c := by
  rw [hardSplitGo]
  split
  · simp [*]
  · rw [List.flatten_cons, hardSplitGo_flatten (c.drop MAX_CHUNK_SIZE)]
    exact List.take_append_drop _ _
termination_by c.length
decreasing_by
  have hlen : 0 < c.length := List.length_pos.mpr (by assumption)
  simp only [List.length_drop, MAX_CHUNK_SIZE]
  omega

theorem hardSplitGo_mem_le (c p : List Char) (hp : p ∈ hardSplitGo c) :
    p.length ≤ MAX_CHUNK_SIZE := by
  rw [hardSplitGo] at hp
  split at hp
  · exact absurd hp (List.not_mem_nil p)
  · rcases List.mem_cons.mp hp with h | h
    · subst h
      simpa using Nat.min_le_left MAX_CHUNK_SIZE c.length
    · exact hardSplitGo_mem_le (c.drop MAX_CHUNK_SIZE) p h
termination_by c.length
decreasing_by
  have hlen : 0 < c.length := List.length_pos.mpr (by assumption)
  simp only [List.length_drop, MAX_CHUNK_SIZE]
  omega

theorem hardSplitGo_eq_nil_iff (c : List Char) : hardSplitGo c = [] ↔ c = [] := by
  rw [hardSplitGo]
  split
  · simp [*]
  · simp [*]

theorem hardSplitGo_dropLast (c p : List Char) (hp : p ∈ (hardSplitGo c).dropLast) :
    p.length = MAX_CHUNK_SIZE := by
  rw [hardSplitGo] at hp
  split at hp
  · exact absurd hp (List.not_mem_nil p)
  · rename_i hne
    rcases hrec : hardSplitGo (c.drop MAX_CHUNK_SIZE) with _ | ⟨q, qs⟩
    · rw [hrec] at hp
      exact absurd hp (List.not_mem_nil p)
    · rw [hrec, List.dropLast_cons_of_ne_nil (by simp)] at hp
      have hdrop : c.drop MAX_CHUNK_SIZE ≠ [] := by
        intro h0
        rw [(hardSplitGo_eq_nil_iff _).mpr h0] at hrec
        exact List.cons_ne_nil q qs hrec.symm
      have hlong : MAX_CHUNK_SIZE < c.length := by
        by_contra hle
        exact hdrop (List.drop_eq_nil_of_le (Nat.le_of_not_lt hle))
      rcases List.mem_cons.mp hp with h | h
      · subst h
        simp only [List.length_take]
        omega
      · rw [← hrec] at h
        exact hardSplitGo_dropLast (c.drop MAX_CHUNK_SIZE) p h
termination_by c.length
decreasing_by
  have hlen : 0 < c.length := List.length_pos.mpr (by assumption)
  simp only [List.length_drop, MAX_CHUNK_SIZE]
  omega

theorem finalize_flatten (l : List (List Char)) : (finalize l).flatten = l.flatten := by
  induction l with
  | nil => rfl
  | cons c cs ih =>
    simp only [finalize, List.flatMap_cons, List.flatten_append] at *
    rw [ih]
    split
    · rw [hardSplitGo_flatten]
      simp
    · simp

theorem finalize_mem_le (l : List (List Char)) (p : List Char)
    (hp : p ∈ finalize l) : p.length ≤ MAX_CHUNK_SIZE := by
  simp only [finalize, List.mem_flatMap] at hp
  obtain ⟨c, _, hpc⟩ := hp
  split at hpc
  · exact hardSplitGo_mem_le c p hpc
  · rename_i hle
    rw [List.mem_singleton.mp hpc]
    omega

theorem greedyAux_flatten (ps : List (List Char)) (cur : List Char) :
    (greedyAux ps cur).flatten = cur ++ ps.flatten := by
  induction ps generalizing cur with
  | nil =>
    simp only [greedyAux]
    split
    · simp
    · rename_i h
      have : cur = [] := by
        simpa using Nat.eq_zero_of_not_pos h
      simp [this]
  | cons p ps ih =>
    simp only [greedyAux]
    split
    · split
      · simp [ih]
      · rename_i h
        have : cur = [] := by
          simpa using Nat.eq_zero_of_not_pos h
        simp [this, ih]
    · simp [ih]

theorem groupNl_flatten (t : List Char) : (groupNl t).flatten = t := by
  induction t with
  | nil => rfl
  | cons c cs ih =>
    rcases h : groupNl cs with _ | ⟨g, gs⟩ <;> rw [h] at ih
    · simp at ih
      simp [groupNl, h, ih]
    · rcases g with _ | ⟨d, g⟩
      · simp only [groupNl, h]
        simpa using ih
      · simp only [groupNl, h]
        split
        · simpa using ih
        · simpa using ih

theorem groupNl_hom (t : List Char) (g : List Char) (hg : g ∈ groupNl t) :
    ∃ b : Bool, ∀ a ∈ g, (a == '\n') = b := by
  induction t generalizing g with
  | nil => exact absurd hg (List.not_mem_nil g)
  | cons c cs ih =>
    rcases h : groupNl cs with _ | ⟨g0, gs⟩
    · simp only [groupNl, h] at hg
      refine ⟨c == '\n', ?_⟩
      intro a ha
      rw [List.mem_singleton.mp hg] at ha
      rw [List.mem_singleton.mp ha]
    · rcases g0 with _ | ⟨d, g0⟩ <;> simp only [groupNl, h] at hg
      · rcases List.mem_cons.mp hg with h1 | h1
        · subst h1
          exact ⟨c == '\n', by simp⟩
        · exact ih g (h ▸ h1)
      · split at hg
        · rename_i hcd
          rcases List.mem_cons.mp hg with h1 | h1
          · subst h1
            obtain ⟨b, hb⟩ := ih (d :: g0) (h ▸ List.mem_cons_self _ _)
            refine ⟨b, ?_⟩
            intro a ha
            rcases List.mem_cons.mp ha with h2 | h2
            · rw [h2, hcd]
              exact hb d (List.mem_cons_self _ _)
            · exact hb a h2
          · exact ih g (h ▸ List.mem_cons_of_mem _ h1)
        · rcases List.mem_cons.mp hg with h1 | h1
          · subst h1
            exact ⟨c == '\n', by simp⟩
          · exact ih g (h ▸ h1)

theorem splitCap_mem (t p : List Char) (hp : p ∈ splitCap t) :
    p = [] ∨ p ∈ groupNl t := by
  rw [splitCap] at hp
  rcases h : groupNl t with _ | ⟨g, gs⟩ <;> rw [h] at hp
  · simp at hp
    exact Or.inl hp
  · simp only at hp
    rcases List.mem_append.mp hp with h1 | h1
    · rcases List.mem_append.mp h1 with h2 | h2
      · split at h2 <;> simp at h2
        exact Or.inl h2
      · exact Or.inr (h ▸ h2)
    · split at h1 <;> simp at h1
      exact Or.inl h1

theorem chunkText_flatten_eq (t : List Char) :
    (chunkText t).flatten = (paragraphs t).flatten := by
  rw [chunkText]
  split
  · rename_i h
    subst h
    rfl
  · rw [finalize_flatten, greedyAux_flatten]
    rfl

theorem groupNl_all_not_nl (t : List Char) (hnl : ∀ c ∈ t, c ≠ '\n')
    (hne : t ≠ []) : groupNl t = [t] := by
  induction t with
  | nil => exact absurd rfl hne
  | cons c cs ih =>
    rcases cs with _ | ⟨d, cs⟩
    · rfl
    · have hih : groupNl (d :: cs) = [d :: cs] :=
        ih (fun x hx => hnl x (List.mem_cons_of_mem _ hx)) (by simp)
      have hc : (c == '\n') = false := by
        simpa using hnl c (List.mem_cons_self _ _)
      have hd : (d == '\n') = false := by
        simpa using hnl d (List.mem_cons_of_mem _ (List.mem_cons_self _ _))
      rw [groupNl, hih]
      show (if (c == '\n') = (d == '\n')
            then (c :: d :: cs) :: ([] : List (List Char))
            else [c] :: (d :: cs) :: []) = [c :: d :: cs]
      rw [hc, hd]
      simp

theorem splitCap_all_not_nl (t : List Char) (hnl : ∀ c ∈ t, c ≠ '\n')
    (hne : t ≠ []) : splitCap t = [t] := by
  have hg := groupNl_all_not_nl t hnl hne
  rw [splitCap]
  rcases t with _ | ⟨c, cs⟩
  · exact absurd rfl hne
  · simp only [hg]
    have hc : c ≠ '\n' := hnl c (List.mem_cons_self _ _)
    simp [hc]

/-- An input that is one long non-blank newline-free paragraph passes through
the greedy loop as a single chunk and is then hard-split. -/
theorem chunkText_single_long (t : List Char) (hnl : ∀ c ∈ t, c ≠ '\n')
    (hnw : hasNonWs t = true) (hlen : MAX_CHUNK_SIZE < t.length) :
    chunkText t = hardSplitGo t := by
  have hpos : 0 < t.length := Nat.lt_of_le_of_lt (Nat.zero_le _) hlen
  have hne : t ≠ [] := by
    intro h0
    rw [h0] at hpos
    exact absurd hpos (by simp)
  have hpar : paragraphs t = [t] := by
    rw [paragraphs, splitCap_all_not_nl t hnl hne]
    simp [hnw]
  have hgre : greedyAux [t] [] = [t] := by
    simp [greedyAux, hlen, hpos]
  have hfin : finalize [t] = hardSplitGo t := by
    simp [finalize, hlen]
  rw [chunkText, if_neg hne, hpar, hgre, hfin]

/-- C3: every chunk produced by `chunkText` has length at most
`MAX_CHUNK_SIZE` (15000); and for an input that is a single non-blank
newline-free paragraph longer than the maximum, the result is exactly the
hard split at fixed offsets, all pieces except possibly the last having
length exactly `MAX_CHUNK_SIZE`. -/
theorem chunkText_max_bound :
    (∀ t c, c ∈ chunkText t → c.length ≤ MAX_CHUNK_SIZE) ∧
    (∀ t, (∀ ch ∈ t, ch ≠ '\n') → hasNonWs t = true →
      MAX_CHUNK_SIZE < t.length →
      chunkText t = hardSplitGo t ∧
      ∀ p ∈ (chunkText t).dropLast, p.length = MAX_CHUNK_SIZE) := by
  constructor
  · intro t c hc
    rw [chunkText] at hc
    split at hc
    · exact absurd hc (List.not_mem_nil c)
    · exact finalize_mem_le _ c hc
  · intro t hnl hnw hlen
    have hct := chunkText_single_long t hnl hnw hlen
    refine ⟨hct, ?_⟩
    intro p hp
    rw [hct] at hp
    exact hardSplitGo_dropLast t p hp

/-- Witness for C3 at `['a']` (bound) and at 15001 copies of `'a'`
(hard-split case). -/
theorem chunkText_max_bound_witness :
    (['a'] ∈ chunkText ['a'] ∧ (['a'] : List Char).length ≤ MAX_CHUNK_SIZE) ∧
    (chunkText (List.replicate 15001 'a') = hardSplitGo (List.replicate 15001 'a') ∧
      ∀ p ∈ (chunkText (List.replicate 15001 'a')).dropLast,
        p.length = MAX_CHUNK_SIZE) := by
  constructor
  · have hmem : ['a'] ∈ chunkText ['a'] := by decide
    exact ⟨hmem, chunkText_max_bound.1 ['a'] ['a'] hmem⟩
  · refine chunkText_max_bound.2 (List.replicate 15001 'a') ?_ ?_ ?_
    · intro ch hch
      rw [List.eq_of_mem_replicate hch]
      decide
    · exact List.any_eq_true.mpr
        ⟨'a', List.mem_replicate.mpr ⟨by decide, rfl⟩, by decide⟩
    · simp only [MAX_CHUNK_SIZE, List.length_replicate]
      omega

/-- C9: no chunk ever contains a newline character, and an input made only
of whitespace (newlines included) yields the empty chunk sequence. -/
theorem chunkText_no_newline :
    (∀ t c ch, c ∈ chunkText t → ch ∈ c → ch ≠ '\n') ∧
    (∀ t, (∀ ch ∈ t, jsWhitespace ch = true) → chunkText t = []) := by
  constructor
  · intro t c ch hc hch
    have h1 : ch ∈ (chunkText t).flatten := List.mem_flatten.mpr ⟨c, hc, hch⟩
    rw [chunkText_flatten_eq] at h1
    obtain ⟨p, hp, hchp⟩ := List.mem_flatten.mp h1
    rw [paragraphs, List.mem_filter] at hp
    obtain ⟨hpsplit, hpnw⟩ := hp
    rcases splitCap_mem t p hpsplit with h | h
    · rw [h] at hchp
      exact absurd hchp (List.not_mem_nil ch)
    · obtain ⟨b, hb⟩ := groupNl_hom t p h
      obtain ⟨a, ha, hra⟩ := List.any_eq_true.mp hpnw
      have hannl : (a == '\n') = false := by
        rcases hb2 : (a == '\n') with _ | _
        · rfl
        · have : a = '\n' := by simpa using hb2
          rw [this] at hra
          simp [jsWhitespace] at hra
      have hbf : b = false := (hb a ha) ▸ hannl
      have := hb ch hchp
      rw [hbf] at this
      simpa using this
  · intro t hws
    by_cases ht : t = []
    · simp [chunkText, ht]
    · rw [chunkText, if_neg ht]
      have hpar : paragraphs t = [] := by
        rw [paragraphs, List.filter_eq_nil_iff]
        intro p hp
        rcases splitCap_mem t p hp with h | h
        · rw [h]
          simp [hasNonWs]
        · simp only [hasNonWs, Bool.not_eq_true]
          rw [← Bool.not_eq_true, List.any_eq_true]
          rintro ⟨a, ha, hra⟩
          have hat : a ∈ t := by
            rw [← groupNl_flatten t]
            exact List.mem_flatten.mpr ⟨p, h, ha⟩
          rw [hws a hat] at hra
          simp at hra
      rw [hpar]
      rfl

/-- Witness for C9 at concrete inputs. -/
theorem chunkText_no_newline_witness :
    ('a' ≠ '\n') ∧ chunkText ['\n', ' '] = [] :=
  ⟨chunkText_no_newline.1 ['a'] ['a'] 'a' (by decide) (by decide),
   chunkText_no_newline.2 ['\n', ' '] (by decide)⟩

/-- C1 fails as stated: the chunks of `"a\nb"` concatenate to `"ab"`, not
`"a\nb"` — the newline is dropped by the paragraph filter. -/
theorem chunkText_roundtrip_cex :
    ¬ ((chunkText ['a', '\n', 'b']).flatten = ['a', '\n', 'b']) := by
  decide

/-- C1 amended: concatenating the chunks of `chunkText t` reproduces not `t`
itself but `t` with every newline run and every whitespace-only segment
removed, i.e. the concatenation of the retained non-blank paragraphs. -/
theorem chunkText_roundtrip_amended (t : List Char) :
    (chunkText t).flatten = (paragraphs t).flatten :=
  chunkText_flatten_eq t

/-- Witness for the amended C1 at the counterexample input. -/
theorem chunkText_roundtrip_amended_witness :
    (chunkText ['a', '\n', 'b']).flatten = (paragraphs ['a', '\n', 'b']).flatten :=
  chunkText_roundtrip_amended ['a', '\n', 'b']

/-! ## Extraction dispatch (src/unnamed/part_004, `readFileContent`)

A browser `File` is modelled by the two attributes the dispatch reads:
`name` and `type` (the declared media type), both as character lists.
The four format-specific readers (`readPdfFile`, `readTextFile`,
`readDocxFile`, `readXlsxFile`) are opaque third-party decoders; the
dispatch result records which one was invoked, or the placeholder string
returned for unsupported files.  The model is a total function: the
dispatch itself performs no throwing operation. -/

structure JSFile where
  name : List Char
  type : List Char

/-- Which decoder `readFileContent` delegates to, or the placeholder. -/
inductive Extraction where
  | viaPdf
  | viaTxt
  | viaDocx
  | viaXlsx
  | unsupported (msg : List Char)
deriving DecidableEq

/-- JavaScript `str.split(sep)` for a single-character separator. -/
def splitOnChar (sep : Char) : List Char → List (List Char)
  | [] => [[]]
  | c :: cs =>
    let r := splitOnChar sep cs
    if c = sep then [] :: r
    else
      match r with
      | [] => [[c]]
      | p :: ps => (c :: p) :: ps

/-- `file.name.split('.').pop()?.toLowerCase()` (line 62 of part_004).
`pop` of a `split` result is its last element (the list is never empty);
`toLowerCase` is modelled on ASCII, which covers every extension the
dispatch compares against. -/
def extOf (name : List Char) : List Char :=
  ((splitOnChar '.' name).getLastD []).map Char.toLower

/-- The placeholder for unsupported files (line 77 of part_004). -/
def placeholderMsg (name : List Char) : List Char :=
  "[파일 형식 분석 불가: ".data ++ name ++
    "] 이 파일의 내용은 분석할 수 없지만, 제출 사실은 AI에 의해 인지됩니다.".data

/-- `readFileContent` (lines 60–78 of part_004): a cascade of four tests,
each accepting on declared media type or filename extension, with the
placeholder as the final fallback. -/
def readFileContent (file : JSFile) : Extraction :=
  let fileType := file.type
  let extension := extOf file.name
  if fileType = "application/pdf".data ∨ extension = "pdf".data then
    .viaPdf
  else if fileType = "text/plain".data ∨ extension = "txt".data then
    .viaTxt
  else if fileType = "application/vnd.openxmlformats-officedocument.wordprocessingml.document".data
      ∨ extension = "docx".data then
    .viaDocx
  else if fileType = "application/vnd.openxmlformats-officedocument.spreadsheetml.sheet".data
      ∨ extension = "xlsx".data then
    .viaXlsx
  else
    .unsupported (placeholderMsg file.name)

/-- The four supported formats, in the order the dispatch tests them. -/
inductive DocFormat where
  | pdf
  | txt
  | docx
  | xlsx
deriving DecidableEq

/-- The media type of each supported format, as tested by the dispatch. -/
def fmtMime : DocFormat → List Char
  | .pdf => "application/pdf".data
  | .txt => "text/plain".data
  | .docx => "application/vnd.openxmlformats-officedocument.wordprocessingml.document".data
  | .xlsx => "application/vnd.openxmlformats-officedocument.spreadsheetml.sheet".data

/-- The filename extension of each supported format. -/
def fmtExt : DocFormat → List Char
  | .pdf => "pdf".data
  | .txt => "txt".data
  | .docx => "docx".data
  | .xlsx => "xlsx".data

/-- The decoder belonging to each supported format. -/
def fmtReader : DocFormat → Extraction
  | .pdf => .viaPdf
  | .txt => .viaTxt
  | .docx => .viaDocx
  | .xlsx => .viaXlsx

/-- Position of each format in the dispatch order. -/
def fmtIdx : DocFormat → Nat
  | .pdf => 0
  | .txt => 1
  | .docx => 2
  | .xlsx => 3

/-- The supported format a declared media type denotes, if any. -/
def declaredFormat (t : List Char) : Option DocFormat :=
  if t = "application/pdf".data then some .pdf
  else if t = "text/plain".data then some .txt
  else if t = "application/vnd.openxmlformats-officedocument.wordprocessingml.document".data then
    some .docx
  else if t = "application/vnd.openxmlformats-officedocument.spreadsheetml.sheet".data then
    some .xlsx
  else none

/-- C4 fails as stated: for `doc.pdf` declared as `text/plain`, the
extension (tested first in the cascade) wins over the declared media type,
so the PDF decoder is used, not the plain-text decoder the declared media
type denotes. -/
theorem readFileContent_type_priority_cex :
    declaredFormat "text/plain".data = some DocFormat.txt ∧
    extOf "doc.pdf".data = fmtExt DocFormat.pdf ∧
    readFileContent ⟨"doc.pdf".data, "text/plain".data⟩ = Extraction.viaPdf ∧
    readFileContent ⟨"doc.pdf".data, "text/plain".data⟩ ≠
      fmtReader DocFormat.txt := by
  refine ⟨by decide, by decide, by decide, by decide⟩

/-- C4 amended: the dispatch tries pdf, txt, docx, xlsx in that fixed
order, taking the first format whose media type equals the declared type or
whose extension equals the filename extension.  Hence the declared media
type decides exactly when no strictly earlier format's extension matches:
if the declared type denotes format `d` and every format whose extension
matches the filename is at position ≥ `d`, the decoder of `d` is used. -/
theorem readFileContent_dispatch_order (f : JSFile) (d : DocFormat)
    (hd : declaredFormat f.type = some d)
    (hext : ∀ e : DocFormat, extOf f.name = fmtExt e → fmtIdx d ≤ fmtIdx e) :
    readFileContent f = fmtReader d := by
  unfold declaredFormat at hd
  split_ifs at hd with h1 h2 h3 h4
  · rw [Option.some_inj] at hd
    subst hd
    rw [readFileContent, if_pos (Or.inl h1)]
    rfl
  · rw [Option.some_inj] at hd
    subst hd
    have hp : ¬ extOf f.name = fmtExt DocFormat.pdf := fun he => by
      have := hext DocFormat.pdf he
      simp [fmtIdx] at this
    rw [readFileContent, if_neg (by rintro (h | h); exacts [h1 h, hp h]),
      if_pos (Or.inl h2)]
    rfl
  · rw [Option.some_inj] at hd
    subst hd
    have hp : ¬ extOf f.name = fmtExt DocFormat.pdf := fun he => by
      have := hext DocFormat.pdf he
      simp [fmtIdx] at this
    have ht : ¬ extOf f.name = fmtExt DocFormat.txt := fun he => by
      have := hext DocFormat.txt he
      simp [fmtIdx] at this
    rw [readFileContent, if_neg (by rintro (h | h); exacts [h1 h, hp h]),
      if_neg (by rintro (h | h); exacts [h2 h, ht h]), if_pos (Or.inl h3)]
    rfl
  · rw [Option.some_inj] at hd
    subst hd
    have hp : ¬ extOf f.name = fmtExt DocFormat.pdf := fun he => by
      have := hext DocFormat.pdf he
      simp [fmtIdx] at this
    have ht : ¬ extOf f.name = fmtExt DocFormat.txt := fun he => by
      have := hext DocFormat.txt he
      simp [fmtIdx] at this
    have hx : ¬ extOf f.name = fmtExt DocFormat.docx := fun he => by
      have := hext DocFormat.docx he
      simp [fmtIdx] at this
    rw [readFileContent, if_neg (by rintro (h | h); exacts [h1 h, hp h]),
      if_neg (by rintro (h | h); exacts [h2 h, ht h]),
      if_neg (by rintro (h | h); exacts [h3 h, hx h]), if_pos (Or.inl h4)]
    rfl

/-- Witness for the amended C4 at a file whose declared type and extension
agree. -/
theorem readFileContent_dispatch_order_witness :
    declaredFormat "text/plain".data = some DocFormat.txt ∧
    readFileContent ⟨"notes.txt".data, "text/plain".data⟩ =
      fmtReader DocFormat.txt := by
  refine ⟨by decide, readFileContent_dispatch_order _ DocFormat.txt (by decide) ?_⟩
  intro e he
  cases e <;> revert he <;> decide

/-- C6: when neither the declared media type nor the filename extension
matches a supported format, `readFileContent` returns the fixed placeholder
naming the file; the dispatch is a total function, so nothing is thrown. -/
theorem readFileContent_unsupported_placeholder (f : JSFile)
    (ht : declaredFormat f.type = none)
    (he : ∀ d : DocFormat, extOf f.name ≠ fmtExt d) :
    readFileContent f = .unsupported (placeholderMsg f.name) := by
  unfold declaredFormat at ht
  split_ifs at ht with h1 h2 h3 h4
  rw [readFileContent,
    if_neg (by rintro (h | h); exacts [h1 h, he DocFormat.pdf h]),
    if_neg (by rintro (h | h); exacts [h2 h, he DocFormat.txt h]),
    if_neg (by rintro (h | h); exacts [h3 h, he DocFormat.docx h]),
    if_neg (by rintro (h | h); exacts [h4 h, he DocFormat.xlsx h])]

/-- Witness for C6 at a legacy HWP file. -/
theorem readFileContent_unsupported_placeholder_witness :
    declaredFormat "application/x-hwp".data = none ∧
    readFileContent ⟨"report.hwp".data, "application/x-hwp".data⟩ =
      .unsupported (placeholderMsg "report.hwp".data) := by
  refine ⟨by decide, readFileContent_unsupported_placeholder _ (by decide) ?_⟩
  intro d
  cases d <;> decide

/-! ## Guideline store (src/utils/db.ts)

The IndexedDB object store `guidelines` is created with `keyPath: 'name'`
(line 29), so it is a collection of records keyed by file name: `put`
overwrites the record with the same key, inserts otherwise.  A store state
is modelled as the list of its records; `saveGuidelinesToDB` clears the
store and then `put`s every file (lines 42 and 53–54), and
`getGuidelinesFromDB` is `store.getAll()` (line 77). -/

structure GuidelineFile where
  name : String
  content : String
deriving DecidableEq

/-- IndexedDB `store.put(file)` on a store with `keyPath: 'name'`:
replace the record with the same key, or insert. -/
def putFile (store : List GuidelineFile) (f : GuidelineFile) : List GuidelineFile :=
  if store.any fun g => g.name = f.name then
    store.map fun g => if g.name = f.name then f else g
  else store ++ [f]

/-- `saveGuidelinesToDB` (lines 35–70 of src/utils/db.ts): clear the store,
then `put` each file in order, in one transaction. -/
def saveGuidelinesToDB (store files : List GuidelineFile) : List GuidelineFile :=
  let _ := store
  files.foldl putFile []

/-- `getGuidelinesFromDB` (lines 72–86): `store.getAll()`. -/
def getGuidelinesFromDB (store : List GuidelineFile) : List GuidelineFile :=
  store

theorem foldl_putFile_append (files acc : List GuidelineFile)
    (hdis : ∀ f ∈ files, ∀ g ∈ acc, g.name ≠ f.name)
    (hnd : (files.map GuidelineFile.name).Nodup) :
    files.foldl putFile acc = acc ++ files := by
  induction files generalizing acc with
  | nil => simp
  | cons f fs ih =>
    have hput : putFile acc f = acc ++ [f] := by
      rw [putFile, if_neg]
      intro hany
      rw [List.any_eq_true] at hany
      obtain ⟨g, hg, hgf⟩ := hany
      exact hdis f (List.mem_cons_self _ _) g hg (of_decide_eq_true hgf)
    rw [List.foldl_cons, hput, ih (acc ++ [f]) ?_ ?_]
    · simp
    · intro x hx g hg
      rcases List.mem_append.mp hg with h | h
      · exact hdis x (List.mem_cons_of_mem _ hx) g h
      · rw [List.mem_singleton.mp h]
        rw [List.map_cons, List.nodup_cons] at hnd
        intro hfx
        exact hnd.1 (hfx ▸ List.mem_map_of_mem GuidelineFile.name hx)
    · rw [List.map_cons, List.nodup_cons] at hnd
      exact hnd.2

/-- C5 fails as stated for duplicate names: the store is keyed by `name`
(`keyPath: 'name'`), so saving two files named `"a"` keeps only the later
one — the record `{a, 1}` is not present afterwards. -/
theorem saveGuidelines_roundtrip_cex :
    getGuidelinesFromDB
      (saveGuidelinesToDB [] [⟨"a", "1"⟩, ⟨"a", "2"⟩]) = [⟨"a", "2"⟩] ∧
    (⟨"a", "1"⟩ : GuidelineFile) ∉
      getGuidelinesFromDB (saveGuidelinesToDB [] [⟨"a", "1"⟩, ⟨"a", "2"⟩]) := by
  refine ⟨by decide, by decide⟩

/-- C5 amended: whenever the saved files have pairwise distinct names (the
store is keyed by name, so a duplicate name overwrites the earlier record),
a save followed by a read returns exactly the saved files, whatever was
stored before. -/
theorem saveGuidelines_roundtrip_amended (store files : List GuidelineFile)
    (hnd : (files.map GuidelineFile.name).Nodup) :
    getGuidelinesFromDB (saveGuidelinesToDB store files) = files := by
  rw [getGuidelinesFromDB, saveGuidelinesToDB]
  exact foldl_putFile_append files [] (by intro f _ g hg; cases hg) hnd

/-- Witness for the amended C5: saving `[{g1, x}]` over a non-empty store
and reading back returns exactly `[{g1, x}]`. -/
theorem saveGuidelines_roundtrip_amended_witness :
    getGuidelinesFromDB
      (saveGuidelinesToDB [⟨"old", "y"⟩] [⟨"g1", "x"⟩]) = [⟨"g1", "x"⟩] :=
  saveGuidelines_roundtrip_amended [⟨"old", "y"⟩] [⟨"g1", "x"⟩] (by decide)

/-! ## Report generation (src/services/geminiService.ts)

The network transport (`ai.models.generateContent`) and the platform
primitive `JSON.parse` are external to the repository; a run of
`generateReport` is therefore modelled by their combined outcome:
either the request threw, or it returned and `JSON.parse(response.text.trim())`
either threw or produced a JSON value.  JSON values are the standard
inductive; numeric values play no role in the verified properties, so the
number payload is an integer. -/

inductive JValue where
  | null
  | bool (b : Bool)
  | num (n : Int)
  | str (s : String)
  | arr (elems : List JValue)
  | obj (fields : List (String × JValue))

/-- JavaScript property access `v[k]` on a parsed JSON value: `none` is
`undefined`.  `JSON.parse` yields objects with distinct keys (a duplicate
key keeps only the last), so first-match lookup is exact. -/
def jget (v : JValue) (k : String) : Option JValue :=
  match v with
  | .obj fields => (fields.find? fun p => p.1 = k).map Prod.snd
  | _ => none

/-- JavaScript truthiness of a possibly-undefined JSON value. -/
def truthy : Option JValue → Bool
  | none => false
  | some .null => false
  | some (.bool b) => b
  | some (.num n) => decide (n ≠ 0)
  | some (.str s) => !(s == "")
  | some (.arr _) => true
  | some (.obj _) => true

/-- The observable outcome of the LLM request plus the parse of its text:
`requestError m` models `ai.models.generateContent` rejecting with message
`m`; `response (.error m)` models `JSON.parse(response.text.trim())`
throwing `m`; `response (.ok r)` models a successful parse to `r`. -/
inductive LLMOutcome where
  | requestError (msg : String)
  | response (parsed : Except String JValue)

/-- `generateReport` (lines 53–158 of src/services/geminiService.ts),
as a function of the transport/parse outcome.  It returns the ordered list
of `onProgress` calls made during the run, paired with the result: the
thrown error message (the catch block wraps every failure, line 156) or the
returned report object.  The validation (line 143) tests only
`reportData.basicInfo` and `reportData.evaluationItems` for truthiness. -/
def generateReport (o : LLMOutcome) :
    List (Nat × String) × Except String JValue :=
  let p85 := (85, "종합 보고서 생성 중...")
  match o with
  | .requestError m => ([p85], .error ("AI 분석 중 오류가 발생했습니다: " ++ m))
  | .response parsed =>
    let p95 := (95, "AI 응답 파싱 중...")
    match parsed with
    | .error m => ([p85, p95], .error ("AI 분석 중 오류가 발생했습니다: " ++ m))
    | .ok r =>
      if !truthy (jget r "basicInfo") || !truthy (jget r "evaluationItems") then
        ([p85, p95],
          .error "AI 분석 중 오류가 발생했습니다: AI response is missing required fields.")
      else
        ([p85, p95, (100, "보고서 생성 완료!")], .ok r)

/-- A syntactically valid LLM response carrying `basicInfo` and
`evaluationItems` but neither `crossCheckResults` nor `aiSummary`. -/
def partialReport : JValue :=
  .obj [("basicInfo", .obj [("name", .str "x")]), ("evaluationItems", .arr [])]

/-- C2 is violated by the code: on a response whose JSON has `basicInfo`
and `evaluationItems` but no `crossCheckResults` and no `aiSummary`, the
validation at line 143 passes and the object is returned even though two of
the four required `ReportData` fields are absent. -/
theorem generateReport_missing_fields_bug :
    (generateReport (.response (.ok partialReport))).2 = .ok partialReport ∧
    jget partialReport "crossCheckResults" = none ∧
    jget partialReport "aiSummary" = none :=
  ⟨rfl, rfl, rfl⟩

/-- C8: during any run of `generateReport`, the progress percentages are
monotonically non-decreasing and lie in `[0, 100]` (percentages are
naturals, so the lower bound is automatic and stated for completeness). -/
theorem generateReport_progress_monotone (o : LLMOutcome) :
    List.Chain' (fun a b : Nat × String => a.1 ≤ b.1) (generateReport o).1 ∧
    ∀ p ∈ (generateReport o).1, 0 ≤ p.1 ∧ p.1 ≤ 100 := by
  cases o with
  | requestError m =>
    constructor
    · simp [generateReport]
    · intro p hp
      rw [generateReport] at hp
      rw [List.mem_singleton.mp hp]
      omega
  | response parsed =>
    cases parsed with
    | error m =>
      constructor
      · simp [generateReport]
      · intro p hp
        simp only [generateReport] at hp
        rcases List.mem_cons.mp hp with h | h
        · rw [h]; omega
        · rw [List.mem_singleton.mp h]; omega
    | ok r =>
      simp only [generateReport]
      split
      · constructor
        · simp
        · intro p hp
          rcases List.mem_cons.mp hp with h | h
          · rw [h]; omega
          · rw [List.mem_singleton.mp h]; omega
      · constructor
        · simp
        · intro p hp
          rcases List.mem_cons.mp hp with h | h
          · rw [h]; omega
          rcases List.mem_cons.mp h with h2 | h2
          · rw [h2]; omega
          · rw [List.mem_singleton.mp h2]; omega

/-- Witness for C8 on the failed-request run. -/
theorem generateReport_progress_monotone_witness :
    List.Chain' (fun a b : Nat × String => a.1 ≤ b.1)
      (generateReport (.requestError "boom")).1 ∧
    ∀ p ∈ (generateReport (.requestError "boom")).1, 0 ≤ p.1 ∧ p.1 ≤ 100 :=
  generateReport_progress_monotone (.requestError "boom")

/-! ## Chunk summarization (src/services/geminiService.ts, lines 26–50) -/

/-- `summarizeTextChunk` as a function of the model-call outcome:
`.ok t` models the call resolving with response text `t` (which is
returned), `.error e` models it rejecting for any reason — the catch block
(lines 45–49) swallows the error and returns the fixed string.  The
function is total: no outcome propagates an exception. -/
def summarizeTextChunk (callResult : Except String String) : String :=
  match callResult with
  | .ok text => text
  | .error _ => "Failed to summarize chunk."

/-- C10: whatever the failure, `summarizeTextChunk` returns the fixed
string `"Failed to summarize chunk."` instead of propagating it, and on
success it returns the response text — it never throws. -/
theorem summarizeTextChunk_never_throws :
    (∀ e, summarizeTextChunk (.error e) = "Failed to summarize chunk.") ∧
    (∀ t, summarizeTextChunk (.ok t) = t) :=
  ⟨fun _ => rfl, fun _ => rfl⟩

/-! ## Chat session (src/services/geminiService.ts lines 161–188 and
src/unnamed/part_005 lines 120–161)

The module-level `let chat: Chat | null = null` is the session state;
`startChat` replaces it with a live session (modelled by the system
instruction it was created with).  `askQuestion` exists in two variants in
the repository; both are modelled. -/

/-- What a call to `askQuestion` does, observably: return a fixed string
without contacting the model, send the question to the model, or throw. -/
inductive AskOutcome where
  | fixedMessage (msg : String)
  | sendToModel (question : String)
  | thrown (msg : String)
deriving DecidableEq

/-- The initial session state: `let chat: Chat | null = null`. -/
def initialChat : Option String := none

/-- `startChat` (line 161): creates a session from the report context. -/
def startChat (reportContext : String) : Option String :=
  some reportContext

/-- `askQuestion` from src/services/geminiService.ts lines 177–188: a null
session yields the fixed Korean "not started" message without issuing any
request. -/
def askQuestion (chat : Option String) (question : String) : AskOutcome :=
  match chat with
  | none => .fixedMessage "채팅 세션이 시작되지 않았습니다. 먼저 보고서를 생성해주세요."
  | some _ => .sendToModel question

/-- `askQuestion` from src/unnamed/part_005 lines 149–161: a null session
throws before any request is issued. -/
def askQuestionThrowing (chat : Option String) (question : String) : AskOutcome :=
  match chat with
  | none => .thrown "Chat is not initialized. Call startChat first."
  | some _ => .sendToModel question

/-- C7: before `startChat` has ever run the session is `initialChat`; in
that state one variant returns the fixed "not started" message, the other
throws an explicit error, and neither sends anything to the model. -/
theorem askQuestion_before_start :
    (∀ q, askQuestion initialChat q =
      .fixedMessage "채팅 세션이 시작되지 않았습니다. 먼저 보고서를 생성해주세요." ∧
      ∀ q2, askQuestion initialChat q ≠ .sendToModel q2) ∧
    (∀ q, askQuestionThrowing initialChat q =
      .thrown "Chat is not initialized. Call startChat first." ∧
      ∀ q2, askQuestionThrowing initialChat q ≠ .sendToModel q2) := by
  constructor
  · intro q
    exact ⟨rfl, fun q2 h => by simp [askQuestion, initialChat] at h⟩
  · intro q
    exact ⟨rfl, fun q2 h => by simp [askQuestionThrowing, initialChat] at h⟩

/-- Witness for C7 at a concrete question. -/
theorem askQuestion_before_start_witness :
    askQuestion initialChat "질문" =
      .fixedMessage "채팅 세션이 시작되지 않았습니다. 먼저 보고서를 생성해주세요." ∧
    askQuestionThrowing initialChat "질문" =
      .thrown "Chat is not initialized. Call startChat first." :=
  ⟨(askQuestion_before_start.1 "질문").1, (askQuestion_before_start.2 "질문").1⟩

/-- Witness for C10 at a concrete failure. -/
theorem summarizeTextChunk_never_throws_witness :
    summarizeTextChunk (.error "network error") = "Failed to summarize chunk." :=
  summarizeTextChunk_never_throws.1 "network error"

end ReportGen
